import Mathlib

/-!
Verification development for the ergvein-filters repository: a shallow
embedding of its compact-filter construction and matching code (src/util.rs,
src/btc.rs, src/mempool.rs, src/ergo.rs, src/filter.rs, src/utils.rs),
together with a model of the Golomb-coded-set engine of the external codec
library, written from the specification's description of it (spec.md sections
4.1 to 4.3).  Byte strings are lists of naturals; machine integers are
naturals with explicit reductions where the code overflows or truncates.
-/

/-! ## Data model (bitcoin transaction shapes consumed by src/util.rs, src/btc.rs) -/

/-- A script is its raw byte string (`bitcoin::Script` content). -/
abbrev Script := List Nat

/-- `bitcoin::OutPoint`: reference to a previous output. -/
structure OutPoint where
  txid : List Nat
  vout : Nat
deriving DecidableEq

/-- `bitcoin::TxIn`: only the fields the selectors read. -/
structure TxIn where
  previous_output : OutPoint
  script_sig : Script
deriving DecidableEq

/-- `bitcoin::TxOut`: only the field the selectors read. -/
structure TxOut where
  script_pubkey : Script
deriving DecidableEq

/-- `bitcoin::Transaction`: only the fields the selectors read. -/
structure Transaction where
  input : List TxIn
  output : List TxOut
deriving DecidableEq

/-- `bitcoin::Block`: only the field the selectors read. -/
structure Block where
  txdata : List Transaction
deriving DecidableEq

/-- `bitcoin::util::bip158::Error`, as the selectors use it: a missing UTXO
reported by the caller-supplied resolver, or an I/O style failure. -/
inductive FilterError where
  | utxoMissing (o : OutPoint)
  | ioError
deriving DecidableEq

/-! ## Script classification

`Script::is_v0_p2wsh`, `is_v0_p2wpkh`, `is_op_return` live in the external
bitcoin crate, not in this repository's sources. -/

/-- Modelled from the spec: the external library's witness-script-hash (P2WSH)
classifier — a v0 witness program of length 34: OP_0 then a 32-byte push. -/
def is_v0_p2wsh (s : Script) : Bool :=
  s.length == 34 && s.getD 0 99 == 0 && s.getD 1 99 == 32

/-- Modelled from the spec: the external library's witness-pubkey-hash (P2WPKH)
classifier — a v0 witness program of length 22: OP_0 then a 20-byte push. -/
def is_v0_p2wpkh (s : Script) : Bool :=
  s.length == 22 && s.getD 0 99 == 0 && s.getD 1 99 == 20

/-- Modelled from the spec: the external library's null-data (OP_RETURN)
classifier — a non-empty script whose first opcode is OP_RETURN (0x6a). -/
def is_op_return (s : Script) : Bool :=
  !s.isEmpty && s.getD 0 99 == 106

/-- src/util.rs `is_script_indexable` (identical to the private copy in
src/btc.rs): non-empty and one of P2WSH, P2WPKH, OP_RETURN. -/
def is_script_indexable (s : Script) : Bool :=
  !s.isEmpty && (is_v0_p2wsh s || is_v0_p2wpkh s || is_op_return s)

/-! ## Shared selector helpers (src/util.rs) -/

/-- src/util.rs `add_output_scripts` (and the identical private copy in
src/btc.rs): for every transaction, every output whose script is indexable is
added; the writer receives the raw `script_pubkey` bytes.  Returns the list of
elements handed to the filter writer, in order. -/
def add_output_scripts (txs : List Transaction) : List Script :=
  txs.flatMap fun t => (t.output.map fun o => o.script_pubkey).filter is_script_indexable

/-- The iterator of src/util.rs `add_input_scripts`: transactions after the
skipped prefix, then `filter_map` keeping the previous output of every input
whose `script_sig` is empty. -/
def util_consulted (isBlock : Bool) (txs : List Transaction) : List OutPoint :=
  (txs.drop (if isBlock then 1 else 0)).flatMap fun t =>
    t.input.filterMap fun i =>
      if i.script_sig.isEmpty then some i.previous_output else none

/-- The loop body of src/util.rs `add_input_scripts` over the consulted
outpoints: on `Ok(script)` add it when indexable; on `Err(e)` return the error
unless the writer is a block filter, in which case the error is skipped. -/
def util_input_loop (isBlock : Bool) (script_for_coin : OutPoint → Except FilterError Script) :
    List OutPoint → Except FilterError (List Script)
  | [] => .ok []
  | o :: os =>
    match script_for_coin o with
    | .ok s =>
      match util_input_loop isBlock script_for_coin os with
      | .ok rest => .ok (if is_script_indexable s then s :: rest else rest)
      | .error e => .error e
    | .error e =>
      if isBlock then util_input_loop isBlock script_for_coin os else .error e

/-- src/util.rs `add_input_scripts`: the writer's `is_block_filter` answer is
the `isBlock` argument.  Returns the elements added, or the propagated error. -/
def add_input_scripts (isBlock : Bool) (txs : List Transaction)
    (script_for_coin : OutPoint → Except FilterError Script) :
    Except FilterError (List Script) :=
  util_input_loop isBlock script_for_coin (util_consulted isBlock txs)

/-! ## The BTC block selector's own input walk (src/btc.rs) -/

/-- The iterator of the private `add_input_scripts` in src/btc.rs: skip the
coinbase, then the previous output of EVERY input (no `script_sig` test). -/
def btc_consulted (block : Block) : List OutPoint :=
  (block.txdata.drop 1).flatMap fun t => t.input.map fun i => i.previous_output

/-- The loop body of the private `add_input_scripts` in src/btc.rs: on
`Ok(script)` add it when indexable; on `Err(e)` return the error. -/
def btc_input_loop (script_for_coin : OutPoint → Except FilterError Script) :
    List OutPoint → Except FilterError (List Script)
  | [] => .ok []
  | o :: os =>
    match script_for_coin o with
    | .ok s =>
      match btc_input_loop script_for_coin os with
      | .ok rest => .ok (if is_script_indexable s then s :: rest else rest)
      | .error e => .error e
    | .error e => .error e

/-- src/btc.rs private `add_input_scripts`, used by
`ErgveinFilter::new_script_filter` for the UTXO-block build. -/
def btc_add_input_scripts (block : Block)
    (script_for_coin : OutPoint → Except FilterError Script) :
    Except FilterError (List Script) :=
  btc_input_loop script_for_coin (btc_consulted block)

/-! ## Key derivation (src/utils.rs, src/filter.rs, src/ergo.rs) -/

/-- src/utils.rs `slice_to_u64_le`: little-endian read of an 8-byte slice,
`res |= slice[i] << i*8` for `i` in `0..8`. -/
def slice_to_u64_le (slice : List Nat) : Nat :=
  (List.range 8).foldl (fun res i => res ||| (slice.getD i 0 <<< (i * 8))) 0

/-- src/filter.rs `RawFilterReader::new`: sip keys from `block_hash[0..8]`
and `block_hash[8..16]`. -/
def rawFilterReaderKeys (block_hash : List Nat) : Nat × Nat :=
  (slice_to_u64_le (block_hash.take 8), slice_to_u64_le ((block_hash.drop 8).take 8))

/-- src/ergo.rs `ErgoFilterWriter::new`: sip keys from `block_id[0..8]` and
`block_id[8..16]`. -/
def ergoFilterWriterKeys (block_id : List Nat) : Nat × Nat :=
  (slice_to_u64_le (block_id.take 8), slice_to_u64_le ((block_id.drop 8).take 8))

/-! ## The Ergo (register-chain) selector (src/ergo.rs) -/

/-- A box identifier (`ergo_lib BoxId`), as opaque bytes. -/
abbrev BoxId := List Nat

/-- An Ergo script in its serialized form: `ergo_tree.sigma_serialize_bytes()`
is modelled as the stored bytes themselves. -/
abbrev ErgoScript := List Nat

/-- `SerializationError` of the external sigma serialization library, as the
selector uses it. -/
inductive ErgoErr where
  | boxMissing (b : BoxId)
  | malformed
deriving DecidableEq

/-- A parsed Ergo transaction: the fields `ErgoFilterWriter::add_scripts`
reads (`output_candidates` yielding serialized ergo trees, `inputs` yielding
box ids). -/
structure ErgoTx where
  output_candidates : List ErgoScript
  inputs : List BoxId
deriving DecidableEq

/-- src/ergo.rs count prefix: read a u32; if it equals the sentinel 10000002,
the following u32 is the count instead. -/
def ergo_tx_count (raw esc : Nat) : Nat :=
  if raw = 10000002 then esc else raw

/-- Sequentially resolve box scripts, propagating the first error (the `?` on
`script_for_coin` in src/ergo.rs). -/
def resolve_boxes (script_for_coin : BoxId → Except ErgoErr ErgoScript) :
    List BoxId → Except ErgoErr (List ErgoScript)
  | [] => .ok []
  | b :: bs =>
    match script_for_coin b with
    | .ok s =>
      match resolve_boxes script_for_coin bs with
      | .ok rest => .ok (s :: rest)
      | .error e => .error e
    | .error e => .error e

/-- The loop of src/ergo.rs `add_scripts` over the iterated indices.
`stream i` models the result of the i-th `Transaction::sigma_parse` call (the
external deserializer, indexed by position in the payload); index 1 is parsed
but skipped (`continue`), any other index contributes every output's
serialized script and then every input box's resolved script. -/
def ergo_loop (stream : Nat → Except ErgoErr ErgoTx)
    (script_for_coin : BoxId → Except ErgoErr ErgoScript) :
    List Nat → Except ErgoErr (List ErgoScript)
  | [] => .ok []
  | i :: is =>
    match stream i with
    | .error e => .error e
    | .ok tx =>
      if i = 1 then ergo_loop stream script_for_coin is
      else
        match resolve_boxes script_for_coin tx.inputs with
        | .error e => .error e
        | .ok resolved =>
          match ergo_loop stream script_for_coin is with
          | .error e => .error e
          | .ok rest => .ok (tx.output_candidates ++ resolved ++ rest)

/-- src/ergo.rs `ErgoFilterWriter::add_scripts`: decode the count prefix,
then `for i in 1..n_tx` — the half-open range `[1, n_tx)`. -/
def ergo_add_scripts (raw esc : Nat) (stream : Nat → Except ErgoErr ErgoTx)
    (script_for_coin : BoxId → Except ErgoErr ErgoScript) :
    Except ErgoErr (List ErgoScript) :=
  ergo_loop stream script_for_coin (List.range' 1 (ergo_tx_count raw esc - 1))

/-- The element selection claim C6 describes, written from the claim's words
for comparison: every transaction index of `1..=n` (all `n` transactions the
count prefix announces), skipping the one at index 1. -/
def ergo_add_scripts_claimed (raw esc : Nat) (stream : Nat → Except ErgoErr ErgoTx)
    (script_for_coin : BoxId → Except ErgoErr ErgoScript) :
    Except ErgoErr (List ErgoScript) :=
  ergo_loop stream script_for_coin (List.range' 1 (ergo_tx_count raw esc))

/-! ## The Golomb-coded-set engine

The engine (`GCSFilterWriter` / `GCSFilterReader` of the external codec
library) is not part of this repository's sources; every definition in this
section is modelled from the spec's description of it (spec.md sections 4.1,
4.2, 4.3 and 6).  The keyed 64-bit hash is abstracted as a function parameter
`hash`: a fixed key pair (k0, k1) determines one such function, and "same
keys" is "same function". -/

/-- Modelled from the spec: the low `w` bits of `v`, most-significant first
(the fixed-width remainder field of section 4.1). -/
def natToBits : Nat → Nat → List Bool
  | 0, _ => []
  | w + 1, v => v.testBit w :: natToBits w v

/-- Modelled from the spec: read a most-significant-first bit string as a
number. -/
def bitsToNat (bs : List Bool) : Nat :=
  bs.foldl (fun acc b => 2 * acc + (if b then 1 else 0)) 0

/-- Modelled from the spec: `Encode(v, P)` of section 4.1 — `v >> P` one-bits,
a zero-bit, then the low `P` bits of `v` most-significant first. -/
def golombRiceEncodeBits (p v : Nat) : List Bool :=
  List.replicate (v >>> p) true ++ false :: natToBits p v

/-- Modelled from the spec: consume the unary quotient — bits until the
zero-bit that terminates the run; `none` past the end of the buffer. -/
def readUnary : List Bool → Option (Nat × List Bool)
  | [] => none
  | false :: bs => some (0, bs)
  | true :: bs =>
    match readUnary bs with
    | none => none
    | some (q, rest) => some (q + 1, rest)

/-- Modelled from the spec: read exactly `w` bits, most-significant first;
`none` past the end of the buffer. -/
def readBitsFixed : Nat → List Bool → Option (Nat × List Bool)
  | 0, bs => some (0, bs)
  | _ + 1, [] => none
  | w + 1, b :: bs =>
    match readBitsFixed w bs with
    | none => none
    | some (r, rest) => some ((if b then 2 ^ w else 0) + r, rest)

/-- Modelled from the spec: `Decode(P)` of section 4.1 — unary quotient `q`,
then `P` remainder bits `r`, returning `q * 2^P + r`. -/
def golombRiceDecodeBits (p : Nat) (bs : List Bool) : Option (Nat × List Bool) :=
  match readUnary bs with
  | none => none
  | some (q, rest) =>
    match readBitsFixed p rest with
    | none => none
    | some (r, rest2) => some (q * 2 ^ p + r, rest2)

/-- Modelled from the spec: `Reduce(h, N, M)` of section 4.2 — the multiply-
shift range reduction `(h * (N*M)) >> 64` with 128-bit intermediate. -/
def mapToRange (h nm : Nat) : Nat :=
  h * nm / 2 ^ 64

/-- Modelled from the spec: the first 8 bits of a byte, most significant
first, concatenated over the byte buffer (section 4.1's byte-aligned
accumulation read back). -/
def bytesToBits (bytes : List Nat) : List Bool :=
  bytes.flatMap fun b => natToBits 8 b

/-- Eight bits of the front of a bit buffer, zero-padded. -/
def take8 (bs : List Bool) : List Bool :=
  (bs ++ List.replicate 8 false).take 8

/-- Modelled from the spec: pack `k` bytes out of a bit buffer, the final
partial byte zero-padded (section 4.1). -/
def bitsToBytesN : Nat → List Bool → List Nat
  | 0, _ => []
  | k + 1, bs => bitsToNat (take8 bs) :: bitsToBytesN k (bs.drop 8)

/-- Modelled from the spec: the byte-aligned buffer holding a bit stream,
zero-padded at the end (section 4.1). -/
def bitsToBytes (bs : List Bool) : List Nat :=
  bitsToBytesN ((bs.length + 7) / 8) bs

/-- `k` little-endian bytes of `n`. -/
def natLeBytes : Nat → Nat → List Nat
  | 0, _ => []
  | k + 1, n => n % 256 :: natLeBytes k (n / 256)

/-- Modelled from the spec: the variable-length integer prefix holding the
element count N (section 6; the codec library's CompactSize VarInt). -/
def varintEncode (n : Nat) : List Nat :=
  if n < 253 then [n]
  else if n < 2 ^ 16 then 253 :: natLeBytes 2 n
  else if n < 2 ^ 32 then 254 :: natLeBytes 4 n
  else 255 :: natLeBytes 8 n

/-- Read `k` little-endian bytes; `none` past the end. -/
def readLeBytes : Nat → List Nat → Option (Nat × List Nat)
  | 0, bs => some (0, bs)
  | _ + 1, [] => none
  | k + 1, b :: bs =>
    match readLeBytes k bs with
    | none => none
    | some (v, rest) => some (b + 256 * v, rest)

/-- Modelled from the spec: decode the variable-length element count. -/
def varintDecode : List Nat → Option (Nat × List Nat)
  | [] => none
  | b :: bs =>
    if b < 253 then some (b, bs)
    else if b = 253 then readLeBytes 2 bs
    else if b = 254 then readLeBytes 4 bs
    else readLeBytes 8 bs

/-- Delta sequence of a sorted value list: each value minus its predecessor
(the first minus `prev`). -/
def deltasFrom : Nat → List Nat → List Nat
  | _, [] => []
  | prev, x :: xs => (x - prev) :: deltasFrom x xs

/-- Running sums reconstructing values from deltas. -/
def prefixSumsFrom : Nat → List Nat → List Nat
  | _, [] => []
  | acc, d :: ds => (acc + d) :: prefixSumsFrom (acc + d) ds

/-- Modelled from the spec: the write path's hashed, range-reduced, sorted
values (section 4.3 steps 1 to 3); N is the element count, elements are not
deduplicated. -/
def hashedSortedValues (hash : List Nat → Nat) (m : Nat) (elements : List (List Nat)) :
    List Nat :=
  List.insertionSort (· ≤ ·)
    (elements.map fun e => mapToRange (hash e) (elements.length * m))

/-- Modelled from the spec: the concatenated Golomb-Rice codes of the delta
sequence (section 4.3 step 4). -/
def encodeFilterBits (p : Nat) (vals : List Nat) : List Bool :=
  (deltasFrom 0 vals).flatMap fun d => golombRiceEncodeBits p d

/-- Modelled from the spec: `BuildFilter(elements, keys)` of section 4.3 —
the count prefix then the byte-padded delta codes. -/
def buildFilterBytes (hash : List Nat → Nat) (p m : Nat) (elements : List (List Nat)) :
    List Nat :=
  varintEncode elements.length ++
    bitsToBytes (encodeFilterBits p (hashedSortedValues hash m elements))

/-- Modelled from the spec: decode `n` Golomb-Rice values off a bit buffer. -/
def decodeDeltas (p : Nat) : Nat → List Bool → Option (List Nat × List Bool)
  | 0, bs => some ([], bs)
  | k + 1, bs =>
    match golombRiceDecodeBits p bs with
    | none => none
    | some (v, rest) =>
      match decodeDeltas p k rest with
      | none => none
      | some (vs, rest2) => some (v :: vs, rest2)

/-- Modelled from the spec: the any-match merge of section 4.3 step 3/4 over
the decoded filter values (first list) and the sorted query values (second
list): advance the smaller cursor, true on the first equality. -/
def mergeAny : List Nat → List Nat → Bool
  | [], _ => false
  | x :: xs, ys =>
    match ys.dropWhile (fun y => y < x) with
    | [] => false
    | y :: ys2 => if y = x then true else mergeAny xs (y :: ys2)

/-- Modelled from the spec: the all-match merge of section 4.3 step 4 — every
query value must be hit before the filter cursor passes it; false when the
filter sequence is exhausted first. -/
def mergeAll : List Nat → List Nat → Bool
  | _, [] => true
  | fs, q :: qs =>
    match fs.dropWhile (fun f => f < q) with
    | [] => false
    | f :: fs2 => if f = q then mergeAll (f :: fs2) qs else false

/-- Modelled from the spec: the read path's hashed, range-reduced, sorted
query values (section 4.3 step 2) — reduced with the filter's own N. -/
def mappedQuery (hash : List Nat → Nat) (m n : Nat) (query : List (List Nat)) :
    List Nat :=
  List.insertionSort (· ≤ ·) (query.map fun e => mapToRange (hash e) (n * m))

/-- Modelled from the spec: `MatchAny` of section 4.3's read path: parse N
(false immediately when 0), reduce and sort the query with the filter's N,
merge against the delta-decoded sequence; empty queries never match; `none`
models the corrupt-filter error. -/
def matchAnyBytes (hash : List Nat → Nat) (p m : Nat) (content : List Nat)
    (query : List (List Nat)) : Option Bool :=
  match varintDecode content with
  | none => none
  | some (n, rest) =>
    if n = 0 then some false
    else if (mappedQuery hash m n query).isEmpty then some false
    else
      match decodeDeltas p n (bytesToBits rest) with
      | none => none
      | some (ds, _) => some (mergeAny (prefixSumsFrom 0 ds) (mappedQuery hash m n query))

/-- Modelled from the spec: `MatchAll` of section 4.3's read path; an empty
query is itself considered non-matching. -/
def matchAllBytes (hash : List Nat → Nat) (p m : Nat) (content : List Nat)
    (query : List (List Nat)) : Option Bool :=
  match varintDecode content with
  | none => none
  | some (n, rest) =>
    if n = 0 then some false
    else if (mappedQuery hash m n query).isEmpty then some false
    else
      match decodeDeltas p n (bytesToBits rest) with
      | none => none
      | some (ds, _) => some (mergeAll (prefixSumsFrom 0 ds) (mappedQuery hash m n query))

/-! ## The mempool filter (src/mempool.rs) -/

/-- src/mempool.rs constant `P = 19`. -/
def mempoolP : Nat := 19

/-- src/mempool.rs constant `M = 784931`. -/
def mempoolM : Nat := 784931

/-- src/mempool.rs `ErgveinMempoolFilter::new_script_filter`: output scripts
then input scripts through the shared helpers of src/util.rs, written with
the engine model.  `MempoolFilterWriter::is_block_filter` is modelled from
the spec as `false` (its body is not among the repository's staged sources;
spec.md section 4.4 makes the mempool resolver failure a hard abort). -/
def mempool_new_script_filter (hash : List Nat → Nat) (txs : List Transaction)
    (script_for_coin : OutPoint → Except FilterError Script) :
    Except FilterError (List Nat) :=
  match add_input_scripts false txs script_for_coin with
  | .error e => .error e
  | .ok ins =>
    .ok (buildFilterBytes hash mempoolP mempoolM (add_output_scripts txs ++ ins))

/-- src/mempool.rs `ErgveinMempoolFilter::match_any` via the engine model. -/
def mempool_match_any (hash : List Nat → Nat) (content : List Nat)
    (query : List Script) : Option Bool :=
  matchAnyBytes hash mempoolP mempoolM content query

/-- src/mempool.rs `ErgveinMempoolFilter::match_all` via the engine model. -/
def mempool_match_all (hash : List Nat → Nat) (content : List Nat)
    (query : List Script) : Option Bool :=
  matchAllBytes hash mempoolP mempoolM content query

/-- src/mempool.rs `match_tx_outputs`: the query elements are the raw
`script_pubkey` bytes of the transaction's outputs. -/
def mempool_match_tx_outputs_query (tx : Transaction) : List (List Nat) :=
  tx.output.map fun o => o.script_pubkey

/-- `bitcoin::consensus::serialize` of a script: its CompactSize length
prefix followed by the raw bytes (the external crate's encoding, used by
src/btc.rs `match_tx_outputs`). -/
def consensusSerializeScript (s : Script) : List Nat :=
  varintEncode s.length ++ s

/-- src/btc.rs `ErgveinFilter::match_tx_outputs`: the query elements are the
consensus-serialized output scripts. -/
def btc_match_tx_outputs_query (tx : Transaction) : List (List Nat) :=
  tx.output.map fun o => consensusSerializeScript o.script_pubkey

/-! ## Characterizing combinators used in theorem statements -/

/-- Sequentially resolve outpoints, stopping at the first error: the
propagation pattern of src/btc.rs and of the mempool branch of src/util.rs,
stated as a plain traversal for the theorems below. -/
def resolve_outpoints (f : OutPoint → Except FilterError Script) :
    List OutPoint → Except FilterError (List Script)
  | [] => .ok []
  | o :: os =>
    match f o with
    | .ok s =>
      match resolve_outpoints f os with
      | .ok rest => .ok (s :: rest)
      | .error e => .error e
    | .error e => .error e

/-- Process a list of already-parsed Ergo transactions the way the src/ergo.rs
loop body does: outputs unconditionally, then inputs through the resolver,
stopping at the first resolver error. -/
def ergo_process (script_for_coin : BoxId → Except ErgoErr ErgoScript) :
    List ErgoTx → Except ErgoErr (List ErgoScript)
  | [] => .ok []
  | tx :: txs =>
    match resolve_boxes script_for_coin tx.inputs with
    | .error e => .error e
    | .ok resolved =>
      match ergo_process script_for_coin txs with
      | .error e => .error e
      | .ok rest => .ok (tx.output_candidates ++ resolved ++ rest)

/-! ## Concrete inputs used by counterexamples and witnesses -/

/-- A stand-in keyed hash for concrete evaluations (any function works for
the engine's structural properties). -/
def sumHash (e : List Nat) : Nat := e.sum

/-- A v0 P2WPKH script used in concrete inputs. -/
def cWpkh : Script := 0 :: 20 :: List.replicate 20 5

/-- Concrete previous-output references. -/
def cPrev1 : OutPoint := ⟨[1], 0⟩

def cPrev2 : OutPoint := ⟨[2], 1⟩

/-- A coinbase-shaped transaction (its inputs must never matter). -/
def cCoinbaseTx : Transaction := ⟨[⟨⟨List.replicate 32 0, 4294967295⟩, [3]⟩], []⟩

/-- A spend with one segwit-style input (empty `script_sig`). -/
def cSegwitSpend : Transaction := ⟨[⟨cPrev1, []⟩], []⟩

/-- A spend with one legacy input (non-empty `script_sig`). -/
def cLegacySpend : Transaction := ⟨[⟨cPrev2, [81]⟩], []⟩

def cBlockSegwit : Block := ⟨[cCoinbaseTx, cSegwitSpend]⟩

def cBlockLegacy : Block := ⟨[cCoinbaseTx, cLegacySpend]⟩

/-- A resolver that fails on every outpoint. -/
def cErrResolver : OutPoint → Except FilterError Script := fun o => .error (.utxoMissing o)

/-- A resolver that answers every outpoint with the P2WPKH script. -/
def cOkResolver : OutPoint → Except FilterError Script := fun _ => .ok cWpkh

/-- A 32-byte block hash with distinct bytes 0..31. -/
def cHash32 : List Nat := List.range 32

/-- A 16-byte identifying value. -/
def cHash16 : List Nat := List.range 16

/-- A transaction with no inputs and one P2WPKH output. -/
def cWpkhTx : Transaction := ⟨[], [⟨cWpkh⟩]⟩

/-- An Ergo transaction with one output script and no inputs. -/
def cErgoTxA : ErgoTx := ⟨[[7]], []⟩

/-- A parse stream yielding `cErgoTxA` at every position. -/
def cErgoStream : Nat → Except ErgoErr ErgoTx := fun _ => .ok cErgoTxA

/-- An Ergo resolver that always succeeds. -/
def cErgoResolver : BoxId → Except ErgoErr ErgoScript := fun _ => .ok []

/-! ## Bit-codec lemmas -/

theorem natToBits_eq_of_testBit_eq {v u : Nat} :
    ∀ w, (∀ i, i < w → v.testBit i = u.testBit i) → natToBits w v = natToBits w u
  | 0, _ => rfl
  | w + 1, h => by
    simp only [natToBits]
    rw [h w (Nat.lt_succ_self w),
      natToBits_eq_of_testBit_eq w (fun i hi => h i (Nat.lt_succ_of_lt hi))]

theorem bitsToNat_foldl (a : Nat) (bs : List Bool) :
    bs.foldl (fun acc b => 2 * acc + (if b then 1 else 0)) a
      = a * 2 ^ bs.length + bitsToNat bs := by
  induction bs generalizing a with
  | nil => simp [bitsToNat]
  | cons b bs ih =>
    simp only [List.foldl_cons, bitsToNat, List.length_cons]
    rw [ih, ih (2 * 0 + if b then 1 else 0)]
    ring

theorem bitsToNat_cons (b : Bool) (bs : List Bool) :
    bitsToNat (b :: bs) = (if b then 1 else 0) * 2 ^ bs.length + bitsToNat bs := by
  have h := bitsToNat_foldl (2 * 0 + if b then 1 else 0) bs
  simp only [bitsToNat, List.foldl_cons] at h ⊢
  rw [h]
  ring

theorem bitsToNat_lt (bs : List Bool) : bitsToNat bs < 2 ^ bs.length := by
  induction bs with
  | nil => simp [bitsToNat]
  | cons b bs ih =>
    rw [bitsToNat_cons, List.length_cons, Nat.pow_succ]
    cases b <;> simp <;> omega

theorem natToBits_bitsToNat : ∀ bs : List Bool, natToBits bs.length (bitsToNat bs) = bs
  | [] => rfl
  | b :: bs => by
    have hlt := bitsToNat_lt bs
    have hX : bitsToNat (b :: bs) = 2 ^ bs.length * (if b then 1 else 0) + bitsToNat bs := by
      rw [bitsToNat_cons]; ring
    have hhead : (bitsToNat (b :: bs)).testBit bs.length = b := by
      rw [hX, Nat.testBit_mul_pow_two_add _ hlt]
      rw [if_neg (Nat.lt_irrefl _), Nat.sub_self]
      cases b <;> rfl
    have htail : natToBits bs.length (bitsToNat (b :: bs)) = natToBits bs.length (bitsToNat bs) := by
      apply natToBits_eq_of_testBit_eq
      intro i hi
      rw [hX, Nat.testBit_mul_pow_two_add _ hlt, if_pos hi]
    simp only [List.length_cons, natToBits]
    rw [hhead, htail, natToBits_bitsToNat bs]

theorem readBitsFixed_append : ∀ (w v : Nat) (rest : List Bool),
    readBitsFixed w (natToBits w v ++ rest) = some (v % 2 ^ w, rest)
  | 0, v, rest => by simp [readBitsFixed, natToBits, Nat.mod_one]
  | w + 1, v, rest => by
    have h2 : v % 2 ^ (w + 1) = (if v.testBit w then 2 ^ w else 0) + v % 2 ^ w := by
      rw [Nat.pow_succ, Nat.mod_mul]
      rcases Nat.mod_two_eq_zero_or_one (v / 2 ^ w) with h | h
      · simp [Nat.testBit_to_div_mod, h]
      · simp [Nat.testBit_to_div_mod, h]
        omega
    simp only [natToBits, List.cons_append, readBitsFixed, List.append_eq,
      readBitsFixed_append w v rest, h2]

theorem readUnary_append (q : Nat) (rest : List Bool) :
    readUnary (List.replicate q true ++ false :: rest) = some (q, rest) := by
  induction q with
  | zero => rfl
  | succ q ih => simp [List.replicate_succ, readUnary, ih]

theorem golombRiceDecode_encode (p v : Nat) (rest : List Bool) :
    golombRiceDecodeBits p (golombRiceEncodeBits p v ++ rest) = some (v, rest) := by
  have hv : v >>> p * 2 ^ p + v % 2 ^ p = v := by
    rw [Nat.shiftRight_eq_div_pow, Nat.mul_comm, Nat.div_add_mod]
  unfold golombRiceEncodeBits golombRiceDecodeBits
  rw [List.append_assoc, List.cons_append]
  simp only [readUnary_append, readBitsFixed_append, hv]

theorem decodeDeltas_append (p : Nat) :
    ∀ (ds : List Nat) (rest : List Bool),
      decodeDeltas p ds.length ((ds.flatMap fun d => golombRiceEncodeBits p d) ++ rest)
        = some (ds, rest)
  | [], rest => by simp [decodeDeltas]
  | d :: ds, rest => by
    simp only [List.length_cons, List.flatMap_cons, List.append_assoc, decodeDeltas,
      golombRiceDecode_encode, decodeDeltas_append p ds rest]

theorem take8_length (bs : List Bool) : (take8 bs).length = 8 := by
  rw [take8, List.length_take, List.length_append, List.length_replicate]
  omega

theorem natToBits_take8 (bs : List Bool) :
    natToBits 8 (bitsToNat (take8 bs)) = take8 bs := by
  have h := natToBits_bitsToNat (take8 bs)
  rwa [take8_length] at h

theorem bytesToBits_bitsToBytesN :
    ∀ (k : Nat) (bs : List Bool), bs.length ≤ 8 * k →
      bytesToBits (bitsToBytesN k bs) = bs ++ List.replicate (8 * k - bs.length) false
  | 0, bs, h => by
    have hb : bs = [] := List.eq_nil_of_length_eq_zero (by omega)
    subst hb; rfl
  | k + 1, bs, h => by
    have hdrop : (bs.drop 8).length ≤ 8 * k := by
      rw [List.length_drop]; omega
    have ih := bytesToBits_bitsToBytesN k (bs.drop 8) hdrop
    have hunfold : bytesToBits (bitsToBytesN (k + 1) bs)
        = natToBits 8 (bitsToNat (take8 bs)) ++ bytesToBits (bitsToBytesN k (bs.drop 8)) := rfl
    rw [hunfold, natToBits_take8, ih]
    rcases Nat.le_total 8 bs.length with hle | hle
    · have ht8 : take8 bs = bs.take 8 := by
        rw [take8, List.take_append_eq_append_take,
          Nat.sub_eq_zero_of_le hle, List.take_zero, List.append_nil]
      have hcount : 8 * k - (bs.drop 8).length = 8 * (k + 1) - bs.length := by
        rw [List.length_drop]; omega
      rw [ht8, hcount, ← List.append_assoc, List.take_append_drop]
    · have hdropnil : bs.drop 8 = [] := List.drop_eq_nil_of_le (by omega)
      have ht8 : take8 bs = bs ++ List.replicate (8 - bs.length) false := by
        rw [take8, List.take_append_eq_append_take, List.take_of_length_le hle,
          List.take_replicate, Nat.min_eq_left (by omega)]
      rw [ht8, hdropnil]
      have hcount : (8 - bs.length) + 8 * k = 8 * (k + 1) - bs.length := by omega
      simp only [List.nil_append, List.append_assoc, List.append_replicate_replicate,
        List.length_nil, Nat.sub_zero, hcount]

theorem bytesToBits_bitsToBytes (bs : List Bool) :
    bytesToBits (bitsToBytes bs)
      = bs ++ List.replicate (8 * ((bs.length + 7) / 8) - bs.length) false :=
  bytesToBits_bitsToBytesN _ bs (by omega)

/-! ## Delta and prefix-sum lemmas -/

theorem deltasFrom_length : ∀ (a : Nat) (l : List Nat), (deltasFrom a l).length = l.length
  | _, [] => rfl
  | a, x :: xs => by simp [deltasFrom, deltasFrom_length x xs]

theorem prefixSums_deltasFrom : ∀ (a : Nat) (l : List Nat),
    List.Chain (· ≤ ·) a l → prefixSumsFrom a (deltasFrom a l) = l
  | _, [], _ => rfl
  | a, x :: xs, h => by
    cases h with
    | cons hax htail =>
      simp only [deltasFrom, prefixSumsFrom, Nat.add_sub_cancel' hax]
      rw [prefixSums_deltasFrom x xs htail]

theorem chain_zero_of_sorted {l : List Nat} (h : l.Sorted (· ≤ ·)) :
    List.Chain (· ≤ ·) 0 l := by
  rw [List.chain_iff_pairwise]
  exact List.Pairwise.cons (fun b _ => Nat.zero_le b) h

/-! ## Merge lemmas -/

theorem dropWhile_eq_nil_forall {p : Nat → Bool} :
    ∀ {l : List Nat}, l.dropWhile p = [] → ∀ x ∈ l, p x = true := by
  intro l
  induction l with
  | nil => intro _ x hx; cases hx
  | cons a l ih =>
    intro h x hx
    rw [List.dropWhile_cons] at h
    by_cases hpa : p a = true
    · rw [if_pos hpa] at h
      rcases List.mem_cons.mp hx with rfl | hmem
      · exact hpa
      · exact ih h x hmem
    · rw [if_neg hpa] at h
      cases h

theorem dropWhile_eq_cons_head_false {p : Nat → Bool} :
    ∀ {l : List Nat} {y : Nat} {ys : List Nat}, l.dropWhile p = y :: ys → p y = false := by
  intro l
  induction l with
  | nil => intro y ys h; cases h
  | cons a l ih =>
    intro y ys h
    rw [List.dropWhile_cons] at h
    by_cases hpa : p a = true
    · rw [if_pos hpa] at h
      exact ih h
    · rw [if_neg hpa] at h
      cases h
      exact Bool.eq_false_iff.mpr hpa

theorem mem_takeWhile_p {p : Nat → Bool} :
    ∀ {l : List Nat} {x : Nat}, x ∈ l.takeWhile p → p x = true := by
  intro l
  induction l with
  | nil => intro x hx; cases hx
  | cons a l ih =>
    intro x hx
    rw [List.takeWhile_cons] at hx
    by_cases hpa : p a = true
    · rw [if_pos hpa] at hx
      rcases List.mem_cons.mp hx with rfl | hmem
      · exact hpa
      · exact ih hmem
    · rw [if_neg hpa] at hx
      cases hx

theorem mem_dropWhile_of_not {p : Nat → Bool} {l : List Nat} {v : Nat}
    (hv : v ∈ l) (hnp : p v = false) : v ∈ l.dropWhile p := by
  have hsplit := List.takeWhile_append_dropWhile (p := p) (l := l)
  rw [← hsplit] at hv
  rcases List.mem_append.mp hv with htk | hdp
  · exact absurd (mem_takeWhile_p htk) (by simp [hnp])
  · exact hdp

theorem sorted_dropWhile {p : Nat → Bool} {l : List Nat}
    (h : l.Sorted (· ≤ ·)) : (l.dropWhile p).Sorted (· ≤ ·) :=
  h.sublist (List.dropWhile_sublist _)

theorem mergeAny_mem : ∀ (xs ys : List Nat), xs.Sorted (· ≤ ·) → ys.Sorted (· ≤ ·) →
    ∀ v, v ∈ xs → v ∈ ys → mergeAny xs ys = true
  | [], _, _, _, v, hx, _ => absurd hx (List.not_mem_nil v)
  | x :: xs, ys, hsx, hsy, v, hvx, hvy => by
    have hsx2 := List.sorted_cons.mp hsx
    have hxv : x ≤ v := by
      rcases List.mem_cons.mp hvx with rfl | hmem
      · exact Nat.le_refl v
      · exact hsx2.1 v hmem
    simp only [mergeAny]
    cases hdw : ys.dropWhile (fun y => decide (y < x)) with
    | nil =>
      exfalso
      have := dropWhile_eq_nil_forall hdw v hvy
      simp only [decide_eq_true_eq] at this
      omega
    | cons y ys2 =>
      show (if y = x then true else mergeAny xs (y :: ys2)) = true
      have hyx : ¬ y < x := by
        have := dropWhile_eq_cons_head_false hdw
        simpa using this
      have hsy2 : (y :: ys2).Sorted (· ≤ ·) := by
        rw [← hdw]; exact sorted_dropWhile hsy
      by_cases heq : y = x
      · rw [if_pos heq]
      · rw [if_neg heq]
        have hvy2 : v ∈ y :: ys2 := by
          rw [← hdw]
          exact mem_dropWhile_of_not hvy (by simp; omega)
        have hvx2 : v ∈ xs := by
          rcases List.mem_cons.mp hvx with rfl | hmem
          · exfalso
            have hyv : y ≤ v := by
              rcases List.mem_cons.mp hvy2 with rfl | hmem2
              · exact Nat.le_refl v
              · exact (List.sorted_cons.mp hsy2).1 v hmem2
            omega
          · exact hmem
        exact mergeAny_mem xs (y :: ys2) hsx2.2 hsy2 v hvx2 hvy2

/-! ## Varint lemmas -/

theorem readLeBytes_append : ∀ (k n : Nat) (rest : List Nat),
    readLeBytes k (natLeBytes k n ++ rest) = some (n % 256 ^ k, rest)
  | 0, n, rest => by simp [readLeBytes, natLeBytes, Nat.mod_one]
  | k + 1, n, rest => by
    have h2 : n % 256 ^ (k + 1) = n % 256 + 256 * (n / 256 % 256 ^ k) := by
      rw [show (256 : Nat) ^ (k + 1) = 256 * 256 ^ k by ring, Nat.mod_mul]
    simp only [natLeBytes, List.cons_append, readLeBytes, List.append_eq,
      readLeBytes_append k (n / 256) rest, h2]

theorem varintDecode_encode (n : Nat) (rest : List Nat) :
    varintDecode (varintEncode n ++ rest) = some (n % 2 ^ 64, rest) := by
  have e2 : (256 : Nat) ^ 2 = 65536 := by norm_num
  have e4 : (256 : Nat) ^ 4 = 4294967296 := by norm_num
  have e8 : (256 : Nat) ^ 8 = 2 ^ 64 := by norm_num
  have e16 : (2 : Nat) ^ 16 = 65536 := by norm_num
  have e32 : (2 : Nat) ^ 32 = 4294967296 := by norm_num
  have e64 : (2 : Nat) ^ 64 = 18446744073709551616 := by norm_num
  unfold varintEncode
  by_cases h1 : n < 253
  · rw [if_pos h1, List.singleton_append]
    simp only [varintDecode]
    rw [if_pos h1, Nat.mod_eq_of_lt (by rw [e64]; omega)]
  · rw [if_neg h1]
    by_cases h2 : n < 2 ^ 16
    · rw [e16] at h2
      rw [if_pos (by rw [e16]; omega), List.cons_append]
      show readLeBytes 2 (natLeBytes 2 n ++ rest) = some (n % 2 ^ 64, rest)
      rw [readLeBytes_append, e2,
        Nat.mod_eq_of_lt (show n < 65536 by omega),
        Nat.mod_eq_of_lt (show n < 2 ^ 64 by rw [e64]; omega)]
    · rw [e16] at h2
      rw [if_neg (by rw [e16]; omega)]
      by_cases h3 : n < 2 ^ 32
      · rw [e32] at h3
        rw [if_pos (by rw [e32]; omega), List.cons_append]
        show readLeBytes 4 (natLeBytes 4 n ++ rest) = some (n % 2 ^ 64, rest)
        rw [readLeBytes_append, e4,
          Nat.mod_eq_of_lt (show n < 4294967296 by omega),
          Nat.mod_eq_of_lt (show n < 2 ^ 64 by rw [e64]; omega)]
      · rw [e32] at h3
        rw [if_neg (by rw [e32]; omega), List.cons_append]
        show readLeBytes 8 (natLeBytes 8 n ++ rest) = some (n % 2 ^ 64, rest)
        rw [readLeBytes_append, e8]

/-! ## Engine-level build and match lemmas -/

theorem hashedSortedValues_sorted (hash : List Nat → Nat) (m : Nat)
    (elements : List (List Nat)) :
    (hashedSortedValues hash m elements).Sorted (· ≤ ·) :=
  List.sorted_insertionSort _ _

theorem hashedSortedValues_length (hash : List Nat → Nat) (m : Nat)
    (elements : List (List Nat)) :
    (hashedSortedValues hash m elements).length = elements.length := by
  rw [hashedSortedValues, (List.perm_insertionSort _ _).length_eq, List.length_map]

theorem mem_hashedSortedValues (hash : List Nat → Nat) (m : Nat)
    {e : List Nat} {elements : List (List Nat)} (he : e ∈ elements) :
    mapToRange (hash e) (elements.length * m) ∈ hashedSortedValues hash m elements := by
  rw [hashedSortedValues, (List.perm_insertionSort _ _).mem_iff]
  exact List.mem_map_of_mem _ he

theorem mappedQuery_sorted (hash : List Nat → Nat) (m n : Nat)
    (query : List (List Nat)) : (mappedQuery hash m n query).Sorted (· ≤ ·) :=
  List.sorted_insertionSort _ _

theorem mem_mappedQuery (hash : List Nat → Nat) (m n : Nat)
    {e : List Nat} {query : List (List Nat)} (hq : e ∈ query) :
    mapToRange (hash e) (n * m) ∈ mappedQuery hash m n query := by
  rw [mappedQuery, (List.perm_insertionSort _ _).mem_iff]
  exact List.mem_map_of_mem _ hq

theorem decodeDeltas_append_of_len (p n : Nat) (ds : List Nat) (rest : List Bool)
    (h : ds.length = n) :
    decodeDeltas p n ((ds.flatMap fun d => golombRiceEncodeBits p d) ++ rest)
      = some (ds, rest) := by
  subst h
  exact decodeDeltas_append p ds rest

theorem matchAnyBytes_build_mem (hash : List Nat → Nat) (p m : Nat)
    (elements query : List (List Nat)) (e : List Nat)
    (he : e ∈ elements) (hq : e ∈ query) (hn : elements.length < 2 ^ 64) :
    matchAnyBytes hash p m (buildFilterBytes hash p m elements) query = some true := by
  have hlen0 : ¬ elements.length = 0 := by
    cases elements with
    | nil => cases he
    | cons a l => simp
  unfold buildFilterBytes matchAnyBytes
  simp only [varintDecode_encode, Nat.mod_eq_of_lt hn]
  rw [if_neg hlen0]
  have hmm : mapToRange (hash e) (elements.length * m)
      ∈ mappedQuery hash m elements.length query := mem_mappedQuery hash m elements.length hq
  have hne : ¬ (mappedQuery hash m elements.length query).isEmpty = true := by
    cases hq2 : mappedQuery hash m elements.length query with
    | nil => rw [hq2] at hmm; cases hmm
    | cons a l => simp
  rw [if_neg hne]
  rw [bytesToBits_bitsToBytes]
  rw [encodeFilterBits]
  rw [decodeDeltas_append_of_len p elements.length _ _
    (by rw [deltasFrom_length, hashedSortedValues_length])]
  show some (mergeAny (prefixSumsFrom 0 (deltasFrom 0 (hashedSortedValues hash m elements)))
      (mappedQuery hash m elements.length query)) = some true
  rw [prefixSums_deltasFrom 0 (hashedSortedValues hash m elements)
    (chain_zero_of_sorted (hashedSortedValues_sorted hash m elements))]
  rw [mergeAny_mem (hashedSortedValues hash m elements)
    (mappedQuery hash m elements.length query)
    (hashedSortedValues_sorted hash m elements)
    (mappedQuery_sorted hash m elements.length query)
    (mapToRange (hash e) (elements.length * m))
    (mem_hashedSortedValues hash m he) hmm]

theorem matchBytes_build_empty_query (hash : List Nat → Nat) (p m : Nat)
    (elements : List (List Nat)) :
    matchAnyBytes hash p m (buildFilterBytes hash p m elements) [] = some false
    ∧ matchAllBytes hash p m (buildFilterBytes hash p m elements) [] = some false := by
  unfold buildFilterBytes matchAnyBytes matchAllBytes
  simp only [varintDecode_encode]
  constructor <;> split <;> simp [mappedQuery, List.insertionSort]

theorem buildFilterBytes_congr_perm (hash : List Nat → Nat) (p m : Nat)
    {l1 l2 : List (List Nat)} (h : l1.Perm l2) :
    buildFilterBytes hash p m l1 = buildFilterBytes hash p m l2 := by
  have hlen := h.length_eq
  unfold buildFilterBytes hashedSortedValues
  rw [hlen]
  have hmaps : (l1.map fun e => mapToRange (hash e) (l2.length * m)).Perm
      (l2.map fun e => mapToRange (hash e) (l2.length * m)) := h.map _
  have hsorteq : List.insertionSort (· ≤ ·) (l1.map fun e => mapToRange (hash e) (l2.length * m))
      = List.insertionSort (· ≤ ·) (l2.map fun e => mapToRange (hash e) (l2.length * m)) :=
    List.eq_of_perm_of_sorted
      ((List.perm_insertionSort _ _).trans (hmaps.trans (List.perm_insertionSort _ _).symm))
      (List.sorted_insertionSort _ _) (List.sorted_insertionSort _ _)
  rw [hsorteq]

/-! ## Selector characterizations -/

theorem util_input_loop_block (f : OutPoint → Except FilterError Script) :
    ∀ os : List OutPoint, util_input_loop true f os
      = .ok ((os.filterMap fun o => (f o).toOption).filter is_script_indexable)
  | [] => rfl
  | o :: os => by
    simp only [util_input_loop, util_input_loop_block f os, List.filterMap_cons]
    cases hfo : f o with
    | ok s => simp [Except.toOption, List.filter_cons]
    | error e => simp [Except.toOption]

theorem util_input_loop_mempool (f : OutPoint → Except FilterError Script) :
    ∀ os : List OutPoint, util_input_loop false f os
      = (resolve_outpoints f os).map (List.filter is_script_indexable)
  | [] => rfl
  | o :: os => by
    simp only [util_input_loop, resolve_outpoints, util_input_loop_mempool f os]
    cases hfo : f o with
    | ok s =>
      cases hro : resolve_outpoints f os with
      | ok l => simp [Except.map, List.filter_cons]
      | error e => simp [Except.map]
    | error e => simp [Except.map]

theorem btc_input_loop_eq (f : OutPoint → Except FilterError Script) :
    ∀ os : List OutPoint, btc_input_loop f os
      = (resolve_outpoints f os).map (List.filter is_script_indexable)
  | [] => rfl
  | o :: os => by
    simp only [btc_input_loop, resolve_outpoints, btc_input_loop_eq f os]
    cases hfo : f o with
    | ok s =>
      cases hro : resolve_outpoints f os with
      | ok l => simp [Except.map, List.filter_cons]
      | error e => simp [Except.map]
    | error e => simp [Except.map]

theorem filterMap_if_eq_filter_map {α β : Type} (p : α → Bool) (g : α → β) :
    ∀ l : List α, (l.filterMap fun a => if p a then some (g a) else none)
      = (l.filter p).map g
  | [] => rfl
  | a :: l => by
    simp only [List.filterMap_cons, List.filter_cons]
    by_cases hpa : p a = true
    · simp [hpa, filterMap_if_eq_filter_map p g l]
    · simp [hpa, filterMap_if_eq_filter_map p g l]

theorem resolve_boxes_ok (g : BoxId → ErgoScript) : ∀ bs : List BoxId,
    resolve_boxes (fun b => .ok (g b)) bs = .ok (bs.map g)
  | [] => rfl
  | b :: bs => by simp [resolve_boxes, resolve_boxes_ok g bs]

theorem ergo_loop_ok_stream (ts : Nat → ErgoTx) (f : BoxId → Except ErgoErr ErgoScript) :
    ∀ is : List Nat, (∀ i ∈ is, ¬ i = 1) →
      ergo_loop (fun i => .ok (ts i)) f is = ergo_process f (is.map ts)
  | [], _ => rfl
  | i :: is, h => by
    have hi : ¬ i = 1 := h i (List.mem_cons_self i is)
    simp only [ergo_loop, ergo_process, List.map_cons, if_neg hi]
    rw [ergo_loop_ok_stream ts f is fun j hj => h j (List.mem_cons_of_mem i hj)]

theorem ergo_add_scripts_ok_stream (raw esc : Nat) (ts : Nat → ErgoTx)
    (f : BoxId → Except ErgoErr ErgoScript) :
    ergo_add_scripts raw esc (fun i => .ok (ts i)) f
      = ergo_process f ((List.range' 2 (ergo_tx_count raw esc - 2)).map ts) := by
  unfold ergo_add_scripts
  rcases hc : ergo_tx_count raw esc with _ | c
  · simp [ergo_loop, ergo_process]
  · cases c with
    | zero => simp [ergo_loop, ergo_process]
    | succ c =>
      rw [show c + 1 + 1 - 1 = c + 1 by omega, List.range'_succ]
      have hskip : ergo_loop (fun i => .ok (ts i)) f (1 :: List.range' 2 c)
          = ergo_loop (fun i => .ok (ts i)) f (List.range' 2 c) := by
        simp [ergo_loop]
      rw [hskip, show c + 1 + 1 - 2 = c by omega]
      apply ergo_loop_ok_stream
      intro j hj
      rcases List.mem_range'.mp hj with ⟨k, hk, rfl⟩
      omega

theorem ergo_process_ok (g : BoxId → ErgoScript) : ∀ txs : List ErgoTx,
    ergo_process (fun b => .ok (g b)) txs
      = .ok (txs.flatMap fun tx => tx.output_candidates ++ tx.inputs.map g)
  | [] => rfl
  | tx :: txs => by
    simp only [ergo_process, resolve_boxes_ok, ergo_process_ok g txs, List.flatMap_cons]

theorem resolve_outpoints_ok (g : OutPoint → Script) : ∀ os : List OutPoint,
    resolve_outpoints (fun o => .ok (g o)) os = .ok (os.map g)
  | [] => rfl
  | o :: os => by simp [resolve_outpoints, resolve_outpoints_ok g os]

/-! ## The claims -/

/-- C1 (corrected): where the resolver's error actually goes.  The shared
util.rs helper with a block-filter writer collects every successfully
resolved indexable script and never fails; with a mempool writer it stops at
the first resolver error; the btc.rs block walk (the one the UTXO-block
`new_script_filter` uses) equally stops at the first resolver error; the
mempool build returns the filter bytes only when the input walk succeeded;
and the Ergo build threads the resolver through `ergo_process`, which stops
at the first resolver error. -/
theorem c1_error_policy (txs : List Transaction) (blk : Block)
    (f : OutPoint → Except FilterError Script) (hash : List Nat → Nat)
    (raw esc : Nat) (ts : Nat → ErgoTx) (g : BoxId → Except ErgoErr ErgoScript) :
    add_input_scripts true txs f
        = .ok (((util_consulted true txs).filterMap fun o => (f o).toOption).filter
            is_script_indexable)
    ∧ add_input_scripts false txs f
        = (resolve_outpoints f (util_consulted false txs)).map (List.filter is_script_indexable)
    ∧ btc_add_input_scripts blk f
        = (resolve_outpoints f (btc_consulted blk)).map (List.filter is_script_indexable)
    ∧ mempool_new_script_filter hash txs f
        = (add_input_scripts false txs f).map
            (fun ins => buildFilterBytes hash mempoolP mempoolM (add_output_scripts txs ++ ins))
    ∧ ergo_add_scripts raw esc (fun i => .ok (ts i)) g
        = ergo_process g ((List.range' 2 (ergo_tx_count raw esc - 2)).map ts) := by
  refine ⟨util_input_loop_block f _, util_input_loop_mempool f _, btc_input_loop_eq f _,
    ?_, ergo_add_scripts_ok_stream raw esc ts g⟩
  unfold mempool_new_script_filter
  cases h : add_input_scripts false txs f with
  | ok ins => simp [Except.map]
  | error e => simp [Except.map]

/-- C1 counterexample: on a two-transaction block whose only non-coinbase
input fails to resolve, the btc.rs input walk used by the UTXO-block build
aborts with the error (the claim says it is silently skipped); the generic
util.rs helper with a block-filter writer is the path that skips it. -/
theorem c1_error_policy_counterexample :
    btc_add_input_scripts cBlockSegwit cErrResolver = .error (.utxoMissing cPrev1)
    ∧ add_input_scripts true cBlockSegwit.txdata cErrResolver = .ok [] :=
  ⟨rfl, rfl⟩

/-- C2 (corrected): both key derivations read k0 from the first 8 bytes and
k1 from bytes 8..16 — the second 8 bytes, not the last 8; reader and Ergo
writer agree, and only for a 16-byte identifying value do bytes 8..16
coincide with the last 8 bytes. -/
theorem c2_keys_derivation (h : List Nat) :
    rawFilterReaderKeys h = ergoFilterWriterKeys h
    ∧ (rawFilterReaderKeys h).1 = slice_to_u64_le (h.take 8)
    ∧ (rawFilterReaderKeys h).2 = slice_to_u64_le ((h.drop 8).take 8)
    ∧ (h.length = 16
        → (rawFilterReaderKeys h).2 = slice_to_u64_le (h.drop (h.length - 8))) := by
  refine ⟨rfl, rfl, rfl, fun hlen => ?_⟩
  have hd : (h.drop 8).length = 8 := by rw [List.length_drop, hlen]
  have htk : (h.drop 8).take 8 = h.drop 8 := List.take_of_length_le (by rw [hd])
  show slice_to_u64_le ((h.drop 8).take 8) = slice_to_u64_le (h.drop (h.length - 8))
  rw [htk, hlen]

/-- C2 counterexample: for the 32-byte hash 0,1,...,31 the k1 the code
derives (bytes 8..16) is not the little-endian u64 of the last 8 bytes
(bytes 24..32), for the facade reader and the Ergo writer alike. -/
theorem c2_keys_counterexample :
    cHash32.length = 32
    ∧ ¬ (rawFilterReaderKeys cHash32).2 = slice_to_u64_le (cHash32.drop 24)
    ∧ ¬ (ergoFilterWriterKeys cHash32).2 = slice_to_u64_le (cHash32.drop 24) := by
  refine ⟨by decide, by decide, by decide⟩

/-- C3 (self-match): every element added while building the mempool filter
(output scripts then resolved input scripts) is found by a later match_any
against that filter with the same keyed hash and any query containing the
element in the same byte representation. -/
theorem c3_mempool_self_match (hash : List Nat → Nat)
    (txs : List Transaction) (f : OutPoint → Except FilterError Script)
    (ins : List Script) (e : List Nat) (query : List Script)
    (hins : add_input_scripts false txs f = .ok ins)
    (he : e ∈ add_output_scripts txs ++ ins)
    (hq : e ∈ query)
    (hn : (add_output_scripts txs ++ ins).length < 2 ^ 64) :
    mempool_new_script_filter hash txs f
        = .ok (buildFilterBytes hash mempoolP mempoolM (add_output_scripts txs ++ ins))
    ∧ mempool_match_any hash
        (buildFilterBytes hash mempoolP mempoolM (add_output_scripts txs ++ ins)) query
      = some true := by
  constructor
  · unfold mempool_new_script_filter
    rw [hins]
  · exact matchAnyBytes_build_mem hash mempoolP mempoolM _ query e he hq hn

/-- C3 witness: a one-transaction mempool with a single P2WPKH output;
the filter built from it matches a query holding that output script. -/
theorem c3_mempool_self_match_witness :
    mempool_new_script_filter sumHash [cWpkhTx] cErrResolver
        = .ok (buildFilterBytes sumHash mempoolP mempoolM (add_output_scripts [cWpkhTx] ++ []))
    ∧ mempool_match_any sumHash
        (buildFilterBytes sumHash mempoolP mempoolM (add_output_scripts [cWpkhTx] ++ []))
        [cWpkh]
      = some true :=
  c3_mempool_self_match sumHash [cWpkhTx] cErrResolver [] cWpkh [cWpkh]
    rfl (by decide) (by decide) (by decide)

/-- C4 (corrected): the coinbase's inputs are never inspected by the btc.rs
input walk, but for every other transaction EVERY input's previous output is
handed to the resolver — there is no empty-`script_sig` restriction in the
UTXO-block build — and the resolved script is added iff indexable.  The
empty-`script_sig` restriction exists only in the shared util.rs helper, the
path the mempool build uses. -/
theorem c4_btc_input_side (txs0 : List Transaction) (cb cb2 : Transaction)
    (f : OutPoint → Except FilterError Script) (g : OutPoint → Script) :
    btc_add_input_scripts ⟨cb :: txs0⟩ f = btc_add_input_scripts ⟨cb2 :: txs0⟩ f
    ∧ btc_consulted ⟨cb :: txs0⟩
        = txs0.flatMap (fun t => t.input.map fun i => i.previous_output)
    ∧ btc_add_input_scripts ⟨cb :: txs0⟩ (fun o => .ok (g o))
        = .ok (((txs0.flatMap fun t => t.input.map fun i => i.previous_output).map g).filter
            is_script_indexable)
    ∧ util_consulted false txs0
        = txs0.flatMap fun t => (t.input.filter fun i => i.script_sig.isEmpty).map
            fun i => i.previous_output := by
  refine ⟨rfl, rfl, ?_, ?_⟩
  · rw [btc_add_input_scripts, btc_input_loop_eq,
      show btc_consulted ⟨cb :: txs0⟩
        = txs0.flatMap (fun t => t.input.map fun i => i.previous_output) from rfl,
      resolve_outpoints_ok]
    simp [Except.map]
  · rw [show util_consulted false txs0
      = txs0.flatMap (fun t => t.input.filterMap fun i =>
          if i.script_sig.isEmpty then some i.previous_output else none) from rfl]
    congr 1
    funext t
    exact filterMap_if_eq_filter_map _ _ t.input

/-- C4 counterexample: a block whose only non-coinbase transaction has a
single input with a NON-empty unlock script: the claim says the resolver is
never invoked for it, yet the build's outcome depends on the resolver — an
indexable resolution is added, a failing resolution aborts the build. -/
theorem c4_btc_input_side_counterexample :
    cLegacySpend.input.all (fun i => !i.script_sig.isEmpty) = true
    ∧ btc_add_input_scripts cBlockLegacy cOkResolver = .ok [cWpkh]
    ∧ btc_add_input_scripts cBlockLegacy cErrResolver = .error (.utxoMissing cPrev2) :=
  ⟨rfl, rfl, rfl⟩

/-- C5: the indexability predicate of src/util.rs and src/btc.rs holds
exactly for non-empty scripts classified v0 P2WSH, v0 P2WPKH or OP_RETURN;
legacy P2PKH, P2SH and bare-multisig byte patterns are excluded, while the
three witness-and-data patterns are included. -/
theorem c5_indexable_script_classification :
    (∀ s : Script, is_script_indexable s = true
      ↔ (¬ s = [] ∧ (is_v0_p2wsh s = true ∨ is_v0_p2wpkh s = true ∨ is_op_return s = true)))
    ∧ is_script_indexable [] = false
    ∧ is_script_indexable ([118, 169, 20] ++ List.replicate 20 1 ++ [136, 172]) = false
    ∧ is_script_indexable ([169, 20] ++ List.replicate 20 1 ++ [135]) = false
    ∧ is_script_indexable ([81, 33] ++ List.replicate 33 2 ++ [81, 174]) = false
    ∧ is_script_indexable cWpkh = true
    ∧ is_script_indexable (0 :: 32 :: List.replicate 32 9) = true
    ∧ is_script_indexable [106] = true := by
  refine ⟨fun s => ?_, by decide, by decide, by decide, by decide, by decide, by decide,
    by decide⟩
  cases s with
  | nil => simp [is_script_indexable]
  | cons a l => simp [is_script_indexable, or_assoc]

/-- C6 (corrected): with a count prefix decoding to n, the Ergo selector
iterates indices 1..n-1: index 1 is parsed and skipped, each other parsed
transaction contributes every output's serialized script and every resolved
input script unconditionally, and the transaction at index n is never
parsed — exactly indices 2..n-1 contribute. -/
theorem c6_ergo_selection (raw esc : Nat) (ts : Nat → ErgoTx) (g : BoxId → ErgoScript) :
    ergo_add_scripts raw esc (fun i => .ok (ts i)) (fun b => .ok (g b))
      = .ok ((List.range' 2 (ergo_tx_count raw esc - 2)).flatMap
          fun i => (ts i).output_candidates ++ (ts i).inputs.map g) := by
  rw [ergo_add_scripts_ok_stream, ergo_process_ok, List.flatMap_map]

/-- C6 counterexample: count prefix 2 with a parseable transaction at every
position: the code contributes nothing (it parses only index 1 and skips
it), while the claim's reading — all transactions except index 1 — would
contribute the second transaction's output script. -/
theorem c6_ergo_selection_counterexample :
    ergo_add_scripts 2 0 cErgoStream cErgoResolver = .ok []
    ∧ ergo_add_scripts_claimed 2 0 cErgoStream cErgoResolver = .ok [[7]]
    ∧ ¬ ergo_add_scripts 2 0 cErgoStream cErgoResolver
        = ergo_add_scripts_claimed 2 0 cErgoStream cErgoResolver := by
  refine ⟨rfl, rfl, fun hcontra => ?_⟩
  have h2 : ([] : List ErgoScript) = [[7]] := Except.ok.inj hcontra
  cases h2

/-- C7: an empty query never matches — match_any and match_all on any filter
the engine builds return false for the empty query, both at the engine level
and through the mempool filter's API. -/
theorem c7_empty_query_never_matches (hash : List Nat → Nat) (p m : Nat)
    (elements : List (List Nat)) :
    matchAnyBytes hash p m (buildFilterBytes hash p m elements) [] = some false
    ∧ matchAllBytes hash p m (buildFilterBytes hash p m elements) [] = some false
    ∧ mempool_match_any hash (buildFilterBytes hash mempoolP mempoolM elements) [] = some false
    ∧ mempool_match_all hash (buildFilterBytes hash mempoolP mempoolM elements) [] = some false :=
  ⟨(matchBytes_build_empty_query hash p m elements).1,
    (matchBytes_build_empty_query hash p m elements).2,
    (matchBytes_build_empty_query hash mempoolP mempoolM elements).1,
    (matchBytes_build_empty_query hash mempoolP mempoolM elements).2⟩

/-- C8: filter construction is deterministic and order-independent — any
permutation of the element sequence, in particular the reverse, yields
byte-identical filter output. -/
theorem c8_build_order_independence (hash : List Nat → Nat) (p m : Nat)
    (l1 l2 : List (List Nat)) (hperm : l1.Perm l2) :
    buildFilterBytes hash p m l1 = buildFilterBytes hash p m l2
    ∧ buildFilterBytes hash p m l1.reverse = buildFilterBytes hash p m l1 :=
  ⟨buildFilterBytes_congr_perm hash p m hperm,
    buildFilterBytes_congr_perm hash p m (List.reverse_perm l1)⟩

/-- C8 witness: swapping two elements, and reversing, leaves the built
filter bytes unchanged on a concrete input. -/
theorem c8_build_order_independence_witness :
    buildFilterBytes sumHash mempoolP mempoolM [[1], [2]]
        = buildFilterBytes sumHash mempoolP mempoolM [[2], [1]]
    ∧ buildFilterBytes sumHash mempoolP mempoolM ([[1], [2]] : List (List Nat)).reverse
        = buildFilterBytes sumHash mempoolP mempoolM [[1], [2]] :=
  c8_build_order_independence sumHash mempoolP mempoolM [[1], [2]] [[2], [1]] (by decide)

/-- C9: single-integer round-trip of the Golomb-Rice bit codec — decoding
the encoding of v with the same remainder width returns v, with or without
trailing bits in the stream. -/
theorem c9_golomb_rice_roundtrip (p v : Nat) :
    golombRiceDecodeBits p (golombRiceEncodeBits p v) = some (v, [])
    ∧ ∀ rest : List Bool,
        golombRiceDecodeBits p (golombRiceEncodeBits p v ++ rest) = some (v, rest) := by
  constructor
  · have h := golombRiceDecode_encode p v []
    rwa [List.append_nil] at h
  · exact fun rest => golombRiceDecode_encode p v rest

/-- C10 (corrected): the mempool match_tx_outputs queries the raw
script_pubkey bytes — exactly the representation add_output_scripts stores —
while the BTC block filter's match_tx_outputs queries the consensus-
serialized script (CompactSize length prefix then the bytes), which never
equals the raw bytes; the two convenience methods never produce the same
query element. -/
theorem c10_query_representation (tx : Transaction) :
    btc_match_tx_outputs_query tx
        = tx.output.map (fun o => varintEncode o.script_pubkey.length ++ o.script_pubkey)
    ∧ mempool_match_tx_outputs_query tx = tx.output.map (fun o => o.script_pubkey)
    ∧ (∀ s : Script, ¬ consensusSerializeScript s = s)
    ∧ add_output_scripts [tx]
        = (tx.output.map fun o => o.script_pubkey).filter is_script_indexable := by
  refine ⟨rfl, rfl, fun s hcontra => ?_, by simp [add_output_scripts]⟩
  have hlen := congrArg List.length hcontra
  rw [consensusSerializeScript, List.length_append] at hlen
  have hne : ¬ (varintEncode s.length).length = 0 := by
    unfold varintEncode
    split
    · simp
    · split
      · simp
      · split <;> simp
  omega

/-- C10 counterexample: for a transaction with one P2WPKH output, the BTC
query element carries a length prefix byte the mempool query element (and
the stored representation) does not. -/
theorem c10_query_representation_counterexample :
    ¬ btc_match_tx_outputs_query cWpkhTx = mempool_match_tx_outputs_query cWpkhTx
    ∧ mempool_match_tx_outputs_query cWpkhTx = [cWpkh]
    ∧ btc_match_tx_outputs_query cWpkhTx = [22 :: cWpkh]
    ∧ add_output_scripts [cWpkhTx] = [cWpkh] := by
  refine ⟨by decide, rfl, rfl, rfl⟩
